import Mathlib

/-!
Verification of the noise-visualisation kernel (`noisevis.py`).

The numeric kernel is embedded shallowly over `ℚ`:
* Python floats are modelled as rationals;
* Python `range(a, b)` is `pyRange a b`;
* Python `ZeroDivisionError` is modelled by `Option`-valued division (`pydiv`);
* the external coherent-noise primitive `noise.pnoise2` is an abstract parameter:
  the two-argument form used by the picker is a function `ℚ → ℚ → ℚ`, the
  keyword form used by `octave_perlin_2d` is a function of all eight arguments;
* the Python loop-variable shadowing in `bue_noise_picker_2d` (the inner
  `for y in range(y-r, y+r)` re-evaluates its range with the shadowed `y`)
  is embedded faithfully by threading the current value of `y` as explicit
  state through the outer scan.
-/

/-- Python `range(a, b)` over the integers: `[a, a+1, …, b-1]`, empty when `b ≤ a`. -/
def pyRange (a b : ℤ) : List ℤ :=
  (List.range (b - a).toNat).map fun i : ℕ => a + (i : ℤ)

/-- Python true division; `none` models `ZeroDivisionError`. -/
def pydiv (a b : ℚ) : Option ℚ :=
  if b = 0 then none else some (a / b)

/-- The noise sample `noise.pnoise2(nx/sx*freq+0.5, ny/sy*freq+0.5)` as computed in
`bue_noise_picker_2d`, with the two divisions fallible. -/
def pickSample (noise : ℚ → ℚ → ℚ) (sx sy freq : ℚ) (nx ny : ℤ) : Option ℚ :=
  match pydiv (nx : ℚ) sx, pydiv (ny : ℚ) sy with
  | some qx, some qy => some (noise (qx * freq + 1/2) (qy * freq + 1/2))
  | _, _ => none

/-- The value `pickSample` yields when both scales are nonzero. -/
def sampleAt (noise : ℚ → ℚ → ℚ) (sx sy freq : ℚ) (nx ny : ℤ) : ℚ :=
  noise ((nx : ℚ) / sx * freq + 1/2) ((ny : ℚ) / sy * freq + 1/2)

/-- The inner `for y in …` loop of `bue_noise_picker_2d`: scans the given list of
`y` values at column `nx`, threading the Python loop variable `y` (second
component). Returns `none` on a division error, `some (true, y)` when a sample
strictly exceeds `here` (the function then returns `False`), and
`some (false, y)` when the loop completes, `y` being its final value. -/
def innerScan (noise : ℚ → ℚ → ℚ) (sx sy freq here : ℚ) (nx : ℤ) :
    List ℤ → ℤ → Option (Bool × ℤ)
  | [], ycur => some (false, ycur)
  | ny :: rest, _ =>
    match pickSample noise sx sy freq nx ny with
    | none => none
    | some s =>
      if here < s then some (true, ny)
      else innerScan noise sx sy freq here nx rest ny

/-- The outer `for x in range(x-r, x+r)` loop of `bue_noise_picker_2d`.
The list of columns was computed once from the original `x`; the inner range is
re-evaluated at every column from the current (shadowed) value of `y`, which is
threaded as `ycur`. Returns `some true` when some scanned sample strictly
exceeds `here`. -/
def outerScan (noise : ℚ → ℚ → ℚ) (sx sy freq here : ℚ) (r : ℤ) :
    List ℤ → ℤ → Option Bool
  | [], _ => some false
  | nx :: rest, ycur =>
    match innerScan noise sx sy freq here nx (pyRange (ycur - r) (ycur + r)) ycur with
    | none => none
    | some (true, _) => some true
    | some (false, ynew) => outerScan noise sx sy freq here r rest ynew

/-- Function `bue_noise_picker_2d(x, y, sx, sy, r)` from `noisevis.py`, with the noise
primitive abstracted. `freq` is the local constant `50`; the centre value
`here` is sampled first, then the (shadowed) double loop scans neighbours and
the function returns `False` as soon as a sample strictly exceeds `here`.
`none` models an uncaught `ZeroDivisionError`. -/
def bue_noise_picker_2d (noise : ℚ → ℚ → ℚ) (x y : ℤ) (sx sy : ℚ) (r : ℤ) :
    Option Bool :=
  let freq : ℚ := 50
  match pickSample noise sx sy freq x y with
  | none => none
  | some here =>
    (outerScan noise sx sy freq here r (pyRange (x - r) (x + r)) y).map fun found => !found

/-- The module-level constant `shape = (256, 256)`. -/
def shape : ℤ × ℤ := (256, 256)

/-- Function `octave_perlin_2d(x, y, octaves, persistence, lacunarity)` from `noisevis.py`:
a thin wrapper that calls the external primitive with `repeatx`/`repeaty` set to
the grid shape and `base=0`, then remaps the result by `/ 2.0 + 0.5`.
The external primitive `pnoise2` is abstracted as a function of its eight
arguments `(x, y, octaves, persistence, lacunarity, repeatx, repeaty, base)`. -/
def octave_perlin_2d (pnoise2 : ℚ → ℚ → ℤ → ℚ → ℚ → ℤ → ℤ → ℤ → ℚ)
    (x y : ℚ) (octaves : ℤ) (persistence lacunarity : ℚ) : ℚ :=
  pnoise2 x y octaves persistence lacunarity shape.1 shape.2 0 / 2 + 1/2

/-- Function `threshme(val, thresh)` from `noisevis.py`: `1 if val >= thresh else 0`. -/
def threshme (val thresh : ℚ) : ℚ :=
  if thresh ≤ val then 1 else 0

/-- Function `linear_falloff(pt, centre, maxd)` from `noisevis.py`. -/
def linear_falloff (pt centre maxd : ℚ) : ℚ :=
  let distance := centre - pt
  if 0 ≤ distance then
    if distance ≤ maxd then 1 - |distance| / maxd else 0
  else
    1 + |distance| / maxd

/-- Shaping step `FalloffShaper.shape(value, position, cfg)`: the shaped value, applied in the
pipeline as `sample * linear_falloff(position, centre, maxd)`. -/
def falloff_shape (value position centre maxd : ℚ) : ℚ :=
  value * linear_falloff position centre maxd

/-- One cell of the field built by `main`:
`result[y][x] = 1 if bue_noise_picker_2d(x, y, 1, 1, 10) else 0`.
`none` propagates a runtime error of the picker (none occurs for these
arguments). -/
def mainCell (noise : ℚ → ℚ → ℚ) (x y : ℤ) : Option ℚ :=
  (bue_noise_picker_2d noise x y 1 1 10).map fun b => if b then 1 else 0

/-- The 8-bit conversion `np.floor(result * 255)` applied to one cell of the
field built by `main`. -/
def mainByte (noise : ℚ → ℚ → ℚ) (x y : ℤ) : Option ℤ :=
  (mainCell noise x y).map fun v => ⌊v * 255⌋

/-- The `y`-window actually scanned at outer column number `j` (counted from the
first column): thanks to the loop-variable shadowing, the window's centre has
drifted by `j * (r - 1)` from the candidate cell's own `y`. -/
def driftWindow (y0 r : ℤ) (j : ℕ) : List ℤ :=
  pyRange (y0 + (j : ℤ) * (r - 1) - r) (y0 + (j : ℤ) * (r - 1) + r)

/-- A concrete two-argument noise function: `1` exactly at the transformed
coordinates of cell `(0, -2)` for unit scales (`0*50+0.5`, `-2*50+0.5`),
`0` everywhere else. -/
def noiseCex : ℚ → ℚ → ℚ :=
  fun a b => if a = 1/2 ∧ b = -199/2 then 1 else 0

/-- The constant-zero two-argument noise function. -/
def zeroNoise2 : ℚ → ℚ → ℚ :=
  fun _ _ => 0

/-- The constant-zero eight-argument noise primitive. -/
def zeroNoise8 : ℚ → ℚ → ℤ → ℚ → ℚ → ℤ → ℤ → ℤ → ℚ :=
  fun _ _ _ _ _ _ _ _ => 0

/-- Membership in `pyRange a b` is the half-open interval `[a, b)`. -/
theorem mem_pyRange {a b n : ℤ} : n ∈ pyRange a b ↔ a ≤ n ∧ n < b := by
  simp only [pyRange, List.mem_map, List.mem_range]
  constructor
  · rintro ⟨i, hi, rfl⟩
    omega
  · rintro ⟨h1, h2⟩
    exact ⟨(n - a).toNat, by omega, by omega⟩

/-- Emptiness: `pyRange a b` is empty when `b ≤ a`. -/
theorem pyRange_eq_nil {a b : ℤ} (h : b ≤ a) : pyRange a b = [] := by
  simp [pyRange, Int.toNat_of_nonpos (by omega : b - a ≤ 0)]

/-- Peeling the first element off a nonempty `pyRange`. -/
theorem pyRange_cons {a b : ℤ} (h : a < b) : pyRange a b = a :: pyRange (a + 1) b := by
  have h1 : (b - a).toNat = (b - (a + 1)).toNat + 1 := by omega
  simp only [pyRange, h1, List.range_succ_eq_map, List.map_cons, List.map_map]
  rw [List.cons_eq_cons]
  refine ⟨by simp, ?_⟩
  apply List.map_congr_left
  intro i _
  simp only [Function.comp_apply]
  push_cast
  ring

/-- The last element of a mapped `List.range (n+1)`. -/
theorem getLastD_map_range (n : ℕ) (a d : ℤ) :
    ((List.range (n + 1)).map fun i : ℕ => a + (i : ℤ)).getLastD d = a + n := by
  induction n with
  | zero => simp [List.range_succ]
  | succ k ih =>
    rw [List.range_succ, List.map_append]
    simp

/-- After a completed nonempty inner loop, the Python loop variable holds `b - 1`. -/
theorem pyRange_getLastD {a b : ℤ} (d : ℤ) (h : a < b) :
    (pyRange a b).getLastD d = b - 1 := by
  obtain ⟨m, hm⟩ : ∃ m : ℕ, (b - a).toNat = m + 1 := ⟨(b - a).toNat - 1, by omega⟩
  rw [pyRange, hm, getLastD_map_range]
  omega

/-- When both scales are nonzero, `pickSample` succeeds with the `sampleAt` value. -/
theorem pickSample_eq (noise : ℚ → ℚ → ℚ) {sx sy : ℚ} (freq : ℚ) (nx ny : ℤ)
    (hx : sx ≠ 0) (hy : sy ≠ 0) :
    pickSample noise sx sy freq nx ny = some (sampleAt noise sx sy freq nx ny) := by
  simp [pickSample, pydiv, hx, hy, sampleAt]

/-- One step of the inner loop when both scales are nonzero. -/
theorem innerScan_cons (noise : ℚ → ℚ → ℚ) {sx sy : ℚ} (freq here : ℚ) (nx a : ℤ)
    (l : List ℤ) (ycur : ℤ) (hx : sx ≠ 0) (hy : sy ≠ 0) :
    innerScan noise sx sy freq here nx (a :: l) ycur =
      if here < sampleAt noise sx sy freq nx a then some (true, a)
      else innerScan noise sx sy freq here nx l a := by
  show (match pickSample noise sx sy freq nx a with
    | none => none
    | some s => if here < s then some (true, a)
                else innerScan noise sx sy freq here nx l a) = _
  rw [pickSample_eq noise freq nx a hx hy]

/-- A completed inner loop (no sample exceeds `here`) leaves the Python loop
variable at the last scanned value. -/
theorem innerScan_not_found (noise : ℚ → ℚ → ℚ) {sx sy : ℚ} (freq here : ℚ) (nx : ℤ)
    (hx : sx ≠ 0) (hy : sy ≠ 0) (ys : List ℤ) :
    ∀ ycur : ℤ, (∀ ny ∈ ys, ¬ here < sampleAt noise sx sy freq nx ny) →
      innerScan noise sx sy freq here nx ys ycur = some (false, ys.getLastD ycur) := by
  induction ys with
  | nil => intro ycur _; rfl
  | cons a l ih =>
    intro ycur h
    rw [innerScan_cons noise freq here nx a l ycur hx hy,
      if_neg (h a (List.mem_cons_self a l)), List.getLastD_cons ycur a l]
    exact ih a fun m hm => h m (List.mem_cons_of_mem a hm)

/-- If some listed sample strictly exceeds `here`, the inner loop reports it. -/
theorem innerScan_found (noise : ℚ → ℚ → ℚ) {sx sy : ℚ} (freq here : ℚ) (nx : ℤ)
    (hx : sx ≠ 0) (hy : sy ≠ 0) (ys : List ℤ) :
    ∀ ycur : ℤ, (∃ ny ∈ ys, here < sampleAt noise sx sy freq nx ny) →
      ∃ yl, innerScan noise sx sy freq here nx ys ycur = some (true, yl) := by
  induction ys with
  | nil => intro ycur h; simp at h
  | cons a l ih =>
    intro ycur h
    rw [innerScan_cons noise freq here nx a l ycur hx hy]
    by_cases ha : here < sampleAt noise sx sy freq nx a
    · exact ⟨a, by rw [if_pos ha]⟩
    · rw [if_neg ha]
      obtain ⟨ny, hm, hlt⟩ := h
      rcases List.mem_cons.mp hm with rfl | hm2
    
      · exact absurd hlt ha
      · exact ih a ⟨ny, hm2, hlt⟩

/-- One step of the outer loop when the inner loop found an exceeding sample. -/
theorem outerScan_cons_found (noise : ℚ → ℚ → ℚ) (sx sy freq here : ℚ) (r : ℤ)
    (nx : ℤ) (rest : List ℤ) (ycur yl : ℤ)
    (hin : innerScan noise sx sy freq here nx (pyRange (ycur - r) (ycur + r)) ycur
      = some (true, yl)) :
    outerScan noise sx sy freq here r (nx :: rest) ycur = some true := by
  show (match innerScan noise sx sy freq here nx (pyRange (ycur - r) (ycur + r)) ycur with
    | none => none
    | some (true, _) => some true
    | some (false, ynew) => outerScan noise sx sy freq here r rest ynew) = some true
  rw [hin]

/-- One step of the outer loop when the inner loop completed without a find. -/
theorem outerScan_cons_notfound (noise : ℚ → ℚ → ℚ) (sx sy freq here : ℚ) (r : ℤ)
    (nx : ℤ) (rest : List ℤ) (ycur ynew : ℤ)
    (hin : innerScan noise sx sy freq here nx (pyRange (ycur - r) (ycur + r)) ycur
      = some (false, ynew)) :
    outerScan noise sx sy freq here r (nx :: rest) ycur
      = outerScan noise sx sy freq here r rest ynew := by
  show (match innerScan noise sx sy freq here nx (pyRange (ycur - r) (ycur + r)) ycur with
    | none => none
    | some (true, _) => some true
    | some (false, ynew) => outerScan noise sx sy freq here r rest ynew) = _
  rw [hin]

/-- When both scales are nonzero the outer scan never hits a division error. -/
theorem outerScan_total (noise : ℚ → ℚ → ℚ) {sx sy : ℚ} (freq here : ℚ) (r : ℤ)
    (hx : sx ≠ 0) (hy : sy ≠ 0) (xs : List ℤ) :
    ∀ ycur : ℤ, ∃ b, outerScan noise sx sy freq here r xs ycur = some b := by
  induction xs with
  | nil => intro ycur; exact ⟨false, rfl⟩
  | cons nx rest ih =>
    intro ycur
    by_cases hf : ∃ ny ∈ pyRange (ycur - r) (ycur + r), here < sampleAt noise sx sy freq nx ny
    · obtain ⟨yl, hin⟩ := innerScan_found noise freq here nx hx hy _ ycur hf
      exact ⟨true, outerScan_cons_found noise sx sy freq here r nx rest ycur yl hin⟩
    · have hf2 : ∀ ny ∈ pyRange (ycur - r) (ycur + r), ¬ here < sampleAt noise sx sy freq nx ny :=
        fun ny hm hlt => hf ⟨ny, hm, hlt⟩
      have hin := innerScan_not_found noise freq here nx hx hy _ ycur hf2
      rw [outerScan_cons_notfound noise sx sy freq here r nx rest ycur _ hin]
      exact ih _

/-- At the first column the scanned window is the intended one. -/
theorem driftWindow_zero (y0 r : ℤ) : driftWindow y0 r 0 = pyRange (y0 - r) (y0 + r) := by
  simp [driftWindow]

/-- Stepping the drift: column `j+1` from `y0` scans what column `j` scans
from `y0 + r - 1` (the value the shadowed loop variable holds after one
completed inner loop). -/
theorem driftWindow_succ (y0 r : ℤ) (j : ℕ) :
    driftWindow y0 r (j + 1) = driftWindow (y0 + r - 1) r j := by
  unfold driftWindow
  congr 1 <;> push_cast <;> ring

/-- Characterisation of the outer scan for positive radius: it reports
`some false` (no exceeding sample, so the picker will return `True`) exactly
when no sample in any drifted window exceeds `here`. -/
theorem outerScan_drift (noise : ℚ → ℚ → ℚ) {sx sy : ℚ} (freq here : ℚ) {r : ℤ}
    (hx : sx ≠ 0) (hy : sy ≠ 0) (hr : 0 < r) (n : ℕ) :
    ∀ x0 y0 : ℤ,
      (outerScan noise sx sy freq here r ((List.range n).map fun j : ℕ => x0 + (j : ℤ)) y0
          = some false ↔
        ∀ j : ℕ, j < n → ∀ ny ∈ driftWindow y0 r j,
          ¬ here < sampleAt noise sx sy freq (x0 + (j : ℤ)) ny) := by
  induction n with
  | zero =>
    intro x0 y0
    simp [outerScan]
  | succ k ih =>
    intro x0 y0
    have hlist : ((List.range (k + 1)).map fun j : ℕ => x0 + (j : ℤ))
        = x0 :: ((List.range k).map fun j : ℕ => (x0 + 1) + (j : ℤ)) := by
      rw [List.range_succ_eq_map, List.map_cons, List.map_map]
      refine List.cons_eq_cons.mpr ⟨by simp, List.map_congr_left fun i _ => ?_⟩
      simp only [Function.comp_apply]
      push_cast
      ring
    rw [hlist]
    by_cases hf : ∃ ny ∈ pyRange (y0 - r) (y0 + r), here < sampleAt noise sx sy freq x0 ny
    · obtain ⟨yl, hin⟩ := innerScan_found noise freq here x0 hx hy _ y0 hf
      rw [outerScan_cons_found noise sx sy freq here r x0 _ y0 yl hin]
      obtain ⟨ny, hm, hlt⟩ := hf
      constructor
      · intro hcontra
        simp at hcontra
      · intro hall
        exact absurd hlt
          ((by simpa using hall 0 (by omega) ny (by rw [driftWindow_zero]; exact hm)))
    · have hf2 : ∀ ny ∈ pyRange (y0 - r) (y0 + r), ¬ here < sampleAt noise sx sy freq x0 ny :=
        fun ny hm hlt => hf ⟨ny, hm, hlt⟩
      have hin := innerScan_not_found noise freq here x0 hx hy _ y0 hf2
      rw [pyRange_getLastD y0 (by omega : y0 - r < y0 + r)] at hin
      rw [outerScan_cons_notfound noise sx sy freq here r x0 _ y0 _ hin]
      rw [ih (x0 + 1) (y0 + r - 1)]
      constructor
      · intro h j hj ny hmem
        cases j with
        | zero =>
          rw [driftWindow_zero] at hmem
          rw [show x0 + ((0 : ℕ) : ℤ) = x0 from by push_cast; ring]
          exact fun hlt => hf ⟨ny, hmem, hlt⟩
        | succ j2 =>
          rw [driftWindow_succ] at hmem
          have h2 := h j2 (by omega) ny hmem
          push_cast
          rw [show x0 + ((j2 : ℤ) + 1) = (x0 + 1) + (j2 : ℤ) from by ring]
          exact h2
      · intro h j hj ny hmem
        rw [← driftWindow_succ] at hmem
        have h2 := h (j + 1) (by omega) ny hmem
        push_cast at h2
        rw [show x0 + ((j : ℤ) + 1) = (x0 + 1) + (j : ℤ) from by ring] at h2
        exact h2

/-- The picker with nonzero scales: centre sample succeeds and the result is the
negation of the outer scan's find. -/
theorem picker_eq_outer (noise : ℚ → ℚ → ℚ) {sx sy : ℚ} (x y r : ℤ)
    (hx : sx ≠ 0) (hy : sy ≠ 0) :
    bue_noise_picker_2d noise x y sx sy r =
      (outerScan noise sx sy 50 (sampleAt noise sx sy 50 x y) r
        (pyRange (x - r) (x + r)) y).map fun found => !found := by
  show (match pickSample noise sx sy 50 x y with
    | none => none
    | some here =>
      (outerScan noise sx sy 50 here r (pyRange (x - r) (x + r)) y).map
        fun found => !found) = _
  rw [pickSample_eq noise 50 x y hx hy]

/-- With nonzero scales the picker always returns a boolean (no division error). -/
theorem picker_total (noise : ℚ → ℚ → ℚ) {sx sy : ℚ} (x y r : ℤ)
    (hx : sx ≠ 0) (hy : sy ≠ 0) :
    ∃ b, bue_noise_picker_2d noise x y sx sy r = some b := by
  rw [picker_eq_outer noise x y r hx hy]
  obtain ⟨b, hb⟩ := outerScan_total noise 50 (sampleAt noise sx sy 50 x y) r hx hy
    (pyRange (x - r) (x + r)) y
  exact ⟨!b, by rw [hb]; rfl⟩

/-- With a non-positive radius the outer range is empty, no neighbour is
scanned, and the picker returns `True`. -/
theorem picker_nonpos (noise : ℚ → ℚ → ℚ) {sx sy : ℚ} (x y : ℤ) {r : ℤ}
    (hx : sx ≠ 0) (hy : sy ≠ 0) (hr : r ≤ 0) :
    bue_noise_picker_2d noise x y sx sy r = some true := by
  rw [picker_eq_outer noise x y r hx hy, pyRange_eq_nil (by omega : x + r ≤ x - r)]
  rfl

/-- Negating the picker's final `map`. -/
theorem map_not_eq_some_false (o : Option Bool) :
    (o.map fun found => !found) = some false ↔ o = some true := by
  cases o with
  | none => simp
  | some b => cases b <;> simp

/-- For a positive radius the picker returns `False` exactly when some sample in
one of the drifted windows strictly exceeds the centre sample. -/
theorem picker_false_iff_drift (noise : ℚ → ℚ → ℚ) {sx sy : ℚ} (x y : ℤ) {r : ℤ}
    (hx : sx ≠ 0) (hy : sy ≠ 0) (hr : 0 < r) :
    (bue_noise_picker_2d noise x y sx sy r = some false ↔
      ∃ j : ℕ, j < (2 * r).toNat ∧ ∃ ny ∈ driftWindow y r j,
        sampleAt noise sx sy 50 (x - r + (j : ℤ)) ny > sampleAt noise sx sy 50 x y) := by
  rw [picker_eq_outer noise x y r hx hy, map_not_eq_some_false]
  have hlist : pyRange (x - r) (x + r)
      = (List.range (2 * r).toNat).map fun j : ℕ => (x - r) + (j : ℤ) := by
    unfold pyRange
    rw [show x + r - (x - r) = 2 * r from by ring]
  rw [hlist]
  have hdrift := outerScan_drift noise 50 (sampleAt noise sx sy 50 x y) hx hy hr
    (2 * r).toNat (x - r) y
  obtain ⟨b, hb⟩ := outerScan_total noise 50 (sampleAt noise sx sy 50 x y) r hx hy
    ((List.range (2 * r).toNat).map fun j : ℕ => (x - r) + (j : ℤ)) y
  rw [hb] at hdrift ⊢
  cases b with
  | false =>
    have hall := hdrift.mp rfl
    constructor
    · intro hcontra
      simp at hcontra
    · rintro ⟨j, hj, ny, hm, hlt⟩
      exact absurd hlt (hall j hj ny hm)
  | true =>
    constructor
    · intro _
      by_contra hne
      simp only [not_exists, not_and] at hne
      exact absurd (hdrift.mpr hne) (by simp)
    · intro _
      rfl

/-- Claim C2 (counterexample): the claim asserts `shape(1, center+250) = 0` and
`shape(1, center-250) = 2`; at `center = 500` the code yields `2` at
`position = 750` (the amplification side), so the stated conjunction fails. -/
theorem falloff_boundary_cex :
    ¬ (falloff_shape 1 500 500 250 = 1 ∧
       falloff_shape 1 (500 + 250) 500 250 = 0 ∧
       falloff_shape 1 (500 - 250) 500 250 = 2) := by
  rintro ⟨-, hB, -⟩
  norm_num [falloff_shape, linear_falloff] at hB

/-- Claim C2 (amended): with `cfg = {center, max_distance = 250}`,
`shape(1, center) = 1`, `shape(1, center+250) = 2` (positions above the centre
are amplified, `distance = -250 < 0`), and `shape(1, center-250) = 0`
(positions below the centre are damped to the boundary, `distance = 250`);
the two off-centre values are swapped relative to the claim. -/
theorem falloff_boundary_values (c : ℚ) :
    falloff_shape 1 c c 250 = 1 ∧
    falloff_shape 1 (c + 250) c 250 = 2 ∧
    falloff_shape 1 (c - 250) c 250 = 0 := by
  have h0 : c - c = 0 := by ring
  have h1 : c - (c + 250) = -250 := by ring
  have h2 : c - (c - 250) = 250 := by ring
  refine ⟨?_, ?_, ?_⟩ <;>
    · simp only [falloff_shape, linear_falloff, h0, h1, h2]
      norm_num

/-- Claim C3: the shaped value is `v` times the gain determined by
`distance = center - position`: `1 - distance/m` when `0 ≤ distance ≤ m`,
`0` when `distance > m`, and `1 + |distance|/m` when `distance < 0`. -/
theorem falloff_piecewise (v p c m : ℚ) (hm : 0 < m) :
    falloff_shape v p c m =
      v * (if 0 ≤ c - p then (if c - p ≤ m then 1 - (c - p) / m else 0)
           else 1 + |c - p| / m) := by
  simp only [falloff_shape, linear_falloff]
  by_cases h : 0 ≤ c - p
  · rw [if_pos h, if_pos h, abs_of_nonneg h]
  · rw [if_neg h, if_neg h]

/-- Witness for claim C3 at `v = 2`, `p = 0`, `c = 1`, `m = 3`. -/
theorem falloff_piecewise_witness :
    (0 : ℚ) < 3 ∧
      falloff_shape 2 0 1 3 =
        2 * (if (0 : ℚ) ≤ 1 - 0 then (if (1 : ℚ) - 0 ≤ 3 then 1 - (1 - 0) / 3 else 0)
             else 1 + |(1 : ℚ) - 0| / 3) :=
  ⟨by norm_num, falloff_piecewise 2 0 1 3 (by norm_num)⟩

/-- Claim C5: with radius `0` the outer range `[x, x)` is empty, no neighbour is
scanned, and the picker returns `True`. -/
theorem picker_radius_zero (noise : ℚ → ℚ → ℚ) (x y : ℤ) {sx sy : ℚ}
    (hsx : 0 < sx) (hsy : 0 < sy) :
    pyRange x x = [] ∧ bue_noise_picker_2d noise x y sx sy 0 = some true :=
  ⟨pyRange_eq_nil le_rfl,
   picker_nonpos noise x y (ne_of_gt hsx) (ne_of_gt hsy) le_rfl⟩

/-- Witness for claim C5 at the constant-zero noise and unit scales. -/
theorem picker_radius_zero_witness :
    pyRange 3 3 = [] ∧ bue_noise_picker_2d zeroNoise2 3 4 1 1 0 = some true :=
  picker_radius_zero zeroNoise2 3 4 (by norm_num) (by norm_num)

/-- Claim C6: assuming the external primitive's raw value lies in `[-1, 1]`,
`octave_perlin_2d` returns `raw/2 + 0.5`, which lies in `[0, 1]`. -/
theorem octave_sample_range (pnoise2 : ℚ → ℚ → ℤ → ℚ → ℚ → ℤ → ℤ → ℤ → ℚ)
    (x y : ℚ) (octaves : ℤ) (persistence lacunarity : ℚ)
    (h1 : -1 ≤ pnoise2 x y octaves persistence lacunarity shape.1 shape.2 0)
    (h2 : pnoise2 x y octaves persistence lacunarity shape.1 shape.2 0 ≤ 1) :
    octave_perlin_2d pnoise2 x y octaves persistence lacunarity
        = pnoise2 x y octaves persistence lacunarity shape.1 shape.2 0 / 2 + 1/2 ∧
      0 ≤ octave_perlin_2d pnoise2 x y octaves persistence lacunarity ∧
      octave_perlin_2d pnoise2 x y octaves persistence lacunarity ≤ 1 := by
  unfold octave_perlin_2d
  exact ⟨rfl, by linarith, by linarith⟩

/-- Witness for claim C6 at the constant-zero primitive. -/
theorem octave_sample_range_witness :
    octave_perlin_2d zeroNoise8 0 0 1 (1/2) 2
        = zeroNoise8 0 0 1 (1/2) 2 shape.1 shape.2 0 / 2 + 1/2 ∧
      0 ≤ octave_perlin_2d zeroNoise8 0 0 1 (1/2) 2 ∧
      octave_perlin_2d zeroNoise8 0 0 1 (1/2) 2 ≤ 1 :=
  octave_sample_range zeroNoise8 0 0 1 (1/2) 2
    (by norm_num [zeroNoise8]) (by norm_num [zeroNoise8])

/-- Claim C7: `threshme` returns `1` exactly when `val ≥ thresh` and `0`
otherwise, and re-thresholding at the same cutoff is the identity provided the
cutoff lies in `(0, 1]`. -/
theorem threshme_spec (v c : ℚ) :
    (threshme v c = 1 ↔ c ≤ v) ∧ (threshme v c = 0 ↔ ¬ c ≤ v) ∧
      (0 < c → c ≤ 1 → threshme (threshme v c) c = threshme v c) := by
  unfold threshme
  by_cases h : c ≤ v
  · rw [if_pos h]
    refine ⟨by simp [h], by simp [h], fun hc1 hc2 => ?_⟩
    rw [if_pos hc2]
  · rw [if_neg h]
    refine ⟨by simp [h], by simp [h], fun hc1 hc2 => ?_⟩
    rw [if_neg (by linarith : ¬ c ≤ 0)]

/-- Witness for claim C7: idempotence at `v = 3`, `c = 1/2`. -/
theorem threshme_spec_witness :
    threshme (threshme 3 (1/2)) (1/2) = threshme 3 (1/2) :=
  (threshme_spec 3 (1/2)).2.2 (by norm_num) (by norm_num)

/-- A zero `sx` makes the very first sample fail with a division error. -/
theorem pickSample_zero_sx (noise : ℚ → ℚ → ℚ) (sy freq : ℚ) (nx ny : ℤ) :
    pickSample noise 0 sy freq nx ny = none := by
  simp [pickSample, pydiv]

/-- Claim C10: with nonzero scales every division in the picker is defined, no
error branch is reachable, and the picker returns a boolean. -/
theorem picker_total_nonzero_scales (noise : ℚ → ℚ → ℚ) (x y r : ℤ) {sx sy : ℚ}
    (hsx : sx ≠ 0) (hsy : sy ≠ 0) :
    ∃ b : Bool, bue_noise_picker_2d noise x y sx sy r = some b :=
  picker_total noise x y r hsx hsy

/-- Witness for claim C10 at the constant-zero noise, unit scales, radius 3. -/
theorem picker_total_nonzero_scales_witness :
    ∃ b : Bool, bue_noise_picker_2d zeroNoise2 0 0 1 1 3 = some b :=
  picker_total_nonzero_scales zeroNoise2 0 0 3 one_ne_zero one_ne_zero

/-- Claim C9: every cell the `main` picker pipeline produces is exactly `0` or
`1`, and after the `floor(value * 255)` conversion every stored byte is `0` or
`255`, for every grid cell and every noise function. -/
theorem main_cell_binary (noise : ℚ → ℚ → ℚ) (x y : ℤ) :
    ∃ v : ℚ, mainCell noise x y = some v ∧ (v = 0 ∨ v = 1) ∧
      mainByte noise x y = some ⌊v * 255⌋ ∧ (⌊v * 255⌋ = 0 ∨ ⌊v * 255⌋ = 255) := by
  obtain ⟨b, hb⟩ := picker_total noise x y 10 one_ne_zero one_ne_zero
  cases b with
  | false =>
    refine ⟨0, by simp [mainCell, hb], Or.inl rfl,
      by simp [mainByte, mainCell, hb], Or.inl (by norm_num)⟩
  | true =>
    refine ⟨1, by simp [mainCell, hb], Or.inr rfl,
      by simp [mainByte, mainCell, hb], Or.inr (by norm_num)⟩

/-- Claim C8 (counterexample): invalid configurations do not fail fast.
With the (invalid) radius `-1` the picker still samples the centre and returns
`True` normally, and with the (invalid) octave count `0` the sampler still
returns a value; no `ConfigError` exists in the code. -/
theorem no_config_error_cex :
    bue_noise_picker_2d zeroNoise2 0 0 1 1 (-1) = some true ∧
    octave_perlin_2d zeroNoise8 0 0 0 (1/2) 2 = 1/2 :=
  ⟨picker_nonpos zeroNoise2 0 0 one_ne_zero one_ne_zero (by norm_num),
   by norm_num [octave_perlin_2d, zeroNoise8]⟩

/-- Claim C8 (amended): the code performs no configuration validation at all.
A non-positive radius makes the picker scan nothing and return `True` normally
(after sampling the centre); a zero scale fails only with a division error at
the first sample, not with a fail-fast `ConfigError` before sampling; an octave
count of `0` is passed through to the external primitive unchecked and the
sampler still returns `raw/2 + 0.5`. -/
theorem no_config_validation (noise : ℚ → ℚ → ℚ)
    (pnoise2 : ℚ → ℚ → ℤ → ℚ → ℚ → ℤ → ℤ → ℤ → ℚ)
    (x y r : ℤ) (sx sy : ℚ) (xq yq persistence lacunarity : ℚ) :
    (sx ≠ 0 → sy ≠ 0 → r ≤ 0 → bue_noise_picker_2d noise x y sx sy r = some true) ∧
    bue_noise_picker_2d noise x y 0 sy r = none ∧
    octave_perlin_2d pnoise2 xq yq 0 persistence lacunarity
      = pnoise2 xq yq 0 persistence lacunarity 256 256 0 / 2 + 1/2 := by
  refine ⟨fun hx hy hr => picker_nonpos noise x y hx hy hr, ?_, rfl⟩
  show (match pickSample noise 0 sy 50 x y with
    | none => none
    | some here =>
      (outerScan noise 0 sy 50 here r (pyRange (x - r) (x + r)) y).map
        fun found => !found) = none
  rw [pickSample_zero_sx noise sy 50 x y]

/-- Witness for claim C8 (amended) at radius `-2` and unit scales. -/
theorem no_config_validation_witness :
    bue_noise_picker_2d zeroNoise2 5 7 1 1 (-2) = some true :=
  (no_config_validation zeroNoise2 zeroNoise8 5 7 (-2) 1 1 0 0 (1/2) 2).1
    (by norm_num) (by norm_num) (by norm_num)

/-- The two-element range `[a-1, a)∪{a}` scanned on each side for radius 1. -/
theorem pyRange_pred_succ (a : ℤ) : pyRange (a - 1) (a + 1) = [a - 1, a] := by
  rw [pyRange_cons (by omega : a - 1 < a + 1),
    pyRange_cons (by omega : a - 1 + 1 < a + 1),
    pyRange_eq_nil (by omega : a + 1 ≤ a - 1 + 1 + 1)]
  simp

/-- For radius 1 the drift vanishes and every column scans `[y-1, y]`. -/
theorem driftWindow_radius_one (y : ℤ) (j : ℕ) : driftWindow y 1 j = [y - 1, y] := by
  unfold driftWindow
  rw [show y + (j : ℤ) * (1 - 1) - 1 = y - 1 from by ring,
    show y + (j : ℤ) * (1 - 1) + 1 = y + 1 from by ring]
  exact pyRange_pred_succ y

/-- Claim C4: for radius 1 the picker compares the centre's value against the
noise samples of exactly the four cells `(x-1,y-1)`, `(x-1,y)`, `(x,y-1)`,
`(x,y)` — the half-open square including the cell itself — and returns `False`
exactly when one of them strictly exceeds the centre's value. -/
theorem picker_radius_one_four_cells (noise : ℚ → ℚ → ℚ) (x y : ℤ) {sx sy : ℚ}
    (hsx : 0 < sx) (hsy : 0 < sy) :
    (bue_noise_picker_2d noise x y sx sy 1 = some false ↔
      sampleAt noise sx sy 50 (x - 1) (y - 1) > sampleAt noise sx sy 50 x y ∨
      sampleAt noise sx sy 50 (x - 1) y > sampleAt noise sx sy 50 x y ∨
      sampleAt noise sx sy 50 x (y - 1) > sampleAt noise sx sy 50 x y ∨
      sampleAt noise sx sy 50 x y > sampleAt noise sx sy 50 x y) := by
  have hx := ne_of_gt hsx
  have hy := ne_of_gt hsy
  rw [picker_false_iff_drift noise x y hx hy one_pos]
  have hc0 : x - 1 + ((0 : ℕ) : ℤ) = x - 1 := by push_cast; ring
  have hc1 : x - 1 + ((1 : ℕ) : ℤ) = x := by push_cast; ring
  constructor
  · rintro ⟨j, hj, ny, hm, hlt⟩
    rw [driftWindow_radius_one y j] at hm
    have hj2 : j = 0 ∨ j = 1 := by omega
    simp only [List.mem_cons, List.not_mem_nil, or_false] at hm
    rcases hj2 with rfl | rfl
    · rw [hc0] at hlt
      rcases hm with rfl | rfl
      · exact Or.inl hlt
      · exact Or.inr (Or.inl hlt)
    · rw [hc1] at hlt
      rcases hm with rfl | rfl
      · exact Or.inr (Or.inr (Or.inl hlt))
      · exact Or.inr (Or.inr (Or.inr hlt))
  · rintro (h | h | h | h)
    · exact ⟨0, by omega, y - 1, by rw [driftWindow_radius_one]; simp, by rw [hc0]; exact h⟩
    · exact ⟨0, by omega, y, by rw [driftWindow_radius_one]; simp, by rw [hc0]; exact h⟩
    · exact ⟨1, by omega, y - 1, by rw [driftWindow_radius_one]; simp, by rw [hc1]; exact h⟩
    · exact ⟨1, by omega, y, by rw [driftWindow_radius_one]; simp, by rw [hc1]; exact h⟩

/-- Witness for claim C4 at the constant-zero noise and unit scales. -/
theorem picker_radius_one_four_cells_witness :
    (bue_noise_picker_2d zeroNoise2 0 0 1 1 1 = some false ↔
      sampleAt zeroNoise2 1 1 50 (0 - 1) (0 - 1) > sampleAt zeroNoise2 1 1 50 0 0 ∨
      sampleAt zeroNoise2 1 1 50 (0 - 1) 0 > sampleAt zeroNoise2 1 1 50 0 0 ∨
      sampleAt zeroNoise2 1 1 50 0 (0 - 1) > sampleAt zeroNoise2 1 1 50 0 0 ∨
      sampleAt zeroNoise2 1 1 50 0 0 > sampleAt zeroNoise2 1 1 50 0 0) :=
  picker_radius_one_four_cells zeroNoise2 0 0 (by norm_num) (by norm_num)

/-- Claim C1 (counterexample): at `(x, y) = (0, 0)`, unit scales and radius 2,
the picker returns `True` although the cell `(0, -2)` of the half-open square
`[-2, 2) × [-2, 2)` carries a strictly larger sample: because of the
loop-variable shadowing the code never scans `(0, -2)` (its third column scans
`ny ∈ [0, 4)` instead of `[-2, 2)`), so the claimed equivalence with the square
scan fails. -/
theorem picker_square_scan_cex :
    ¬ ((bue_noise_picker_2d noiseCex 0 0 1 1 2 = some false) ↔
      ∃ nx ∈ pyRange (0 - 2) (0 + 2), ∃ ny ∈ pyRange (0 - 2) (0 + 2),
        sampleAt noiseCex 1 1 50 nx ny > sampleAt noiseCex 1 1 50 0 0) := by
  intro h
  have htrue : bue_noise_picker_2d noiseCex 0 0 1 1 2 = some true := by
    norm_num [bue_noise_picker_2d, outerScan, innerScan, pickSample, pydiv, pyRange,
      noiseCex, List.range_succ]
  have hex : ∃ nx ∈ pyRange (0 - 2) (0 + 2), ∃ ny ∈ pyRange (0 - 2) (0 + 2),
      sampleAt noiseCex 1 1 50 nx ny > sampleAt noiseCex 1 1 50 0 0 := by
    refine ⟨0, mem_pyRange.mpr (by omega), -2, mem_pyRange.mpr (by omega), ?_⟩
    norm_num [sampleAt, noiseCex]
  have hfalse := h.mpr hex
  rw [hfalse] at htrue
  exact absurd htrue (by simp)

/-- Claim C1 (amended): with positive scales the picker returns `False` exactly
when some cell of the windows it actually scans carries a sample strictly
greater than the centre's (ties never disqualify), but because of the
loop-variable shadowing the scanned window of the `i`-th column `x - r + i` is
`[y + i*(r-1) - r, y + i*(r-1) + r)`, which coincides with the claimed square
only for radii `≤ 1`: for `r ≥ 2` the windows drift upward by `r - 1` per
column, so the shadowing does change which cells are scanned. -/
theorem picker_false_iff_shifted_windows (noise : ℚ → ℚ → ℚ) (x y : ℤ) {sx sy : ℚ}
    (r : ℤ) (hsx : 0 < sx) (hsy : 0 < sy) :
    (bue_noise_picker_2d noise x y sx sy r = some false ↔
      ∃ i ∈ pyRange 0 (2 * r),
        ∃ ny ∈ pyRange (y + i * (r - 1) - r) (y + i * (r - 1) + r),
          sampleAt noise sx sy 50 (x - r + i) ny > sampleAt noise sx sy 50 x y) := by
  have hx := ne_of_gt hsx
  have hy := ne_of_gt hsy
  rcases le_or_lt r 0 with hr | hr
  · rw [picker_nonpos noise x y hx hy hr]
    constructor
    · intro hcontra
      simp at hcontra
    · rintro ⟨i, hi, -⟩
      rw [mem_pyRange] at hi
      omega
  · rw [picker_false_iff_drift noise x y hx hy hr]
    constructor
    · rintro ⟨j, hj, ny, hm, hlt⟩
      exact ⟨(j : ℤ), mem_pyRange.mpr (by omega), ny, hm, hlt⟩
    · rintro ⟨i, hi, ny, hm, hlt⟩
      rw [mem_pyRange] at hi
      refine ⟨i.toNat, by omega, ny, ?_, ?_⟩
      · show ny ∈ pyRange (y + ((i.toNat : ℕ) : ℤ) * (r - 1) - r)
          (y + ((i.toNat : ℕ) : ℤ) * (r - 1) + r)
        rw [Int.toNat_of_nonneg hi.1]
        exact hm
      · rw [Int.toNat_of_nonneg hi.1]
        exact hlt

/-- Witness for claim C1 (amended) at the constant-zero noise, unit scales,
radius 2. -/
theorem picker_false_iff_shifted_windows_witness :
    (bue_noise_picker_2d zeroNoise2 0 0 1 1 2 = some false ↔
      ∃ i ∈ pyRange 0 (2 * 2),
        ∃ ny ∈ pyRange (0 + i * (2 - 1) - 2) (0 + i * (2 - 1) + 2),
          sampleAt zeroNoise2 1 1 50 (0 - 2 + i) ny > sampleAt zeroNoise2 1 1 50 0 0) :=
  picker_false_iff_shifted_windows zeroNoise2 0 0 2 (by norm_num) (by norm_num)
